import Mathlib

/-!
# PeekBuffer: a fixed-capacity ring buffer with full ("peeking") reads

Shallow embedding of `peekbuffer.go`.

* A Go `[]byte` is a `List Byte`; the three `int` fields are `Int` (Go's `int` is signed, so
  `r.Cap - r.Pos` and `len(p) - r.Cap` are signed subtractions).  Every value the methods compute
  lies between `-len(p)` and `len(p) + 2 * Cap`, where `Cap` and `len(p)` are lengths of allocated
  byte slices, so the 64-bit `int` never wraps and unbounded `Int` is exact.
* A run-time panic (a slice expression out of range, `make` with a negative length) is `none`.
* The methods have a pointer receiver; they are modelled by explicit state passing: each returns
  the receiver after the call together with its Go results.  `Read` writes into the caller's
  slice `p`, so it also returns `p` after the call.  The destination is taken not to alias
  `r.Buffer`.
* `Write`, `Read`, `Reset`, `Bytes` and `String` are the sequential behaviour of one call at a
  time.  The calls they make on the `sync.RWMutex` are modelled apart, as a transition system
  over the lock events of concurrent calls (section "The lock protocol").
-/

namespace PeekBuffer

/-- A Go `byte`. -/
abbrev Byte := UInt8

/-- The only error value used by the package: `io.ErrUnexpectedEOF`. -/
inductive Error where
  | ErrUnexpectedEOF
deriving DecidableEq

end PeekBuffer

/-- The Go struct `PeekBuffer` without its lock. -/
structure PeekBuffer where
  Buffer : List PeekBuffer.Byte
  Cap : Int
  Len : Int
  Pos : Int
deriving DecidableEq

namespace PeekBuffer

/-- The slice expression `s[lo:]`; it panics unless `0 <= lo <= len(s)`. -/
def sliceFrom (s : List Byte) (lo : Int) : Option (List Byte) :=
  if 0 ≤ lo ∧ lo ≤ (s.length : Int) then some (s.drop lo.toNat) else none

/-- The slice expression `s[:hi]` on a slice whose capacity equals its length (the backing
array of the buffer, made by `make([]byte, size)`); it panics unless `0 <= hi <= cap(s)`. -/
def sliceTo (s : List Byte) (hi : Int) : Option (List Byte) :=
  if 0 ≤ hi ∧ hi ≤ (s.length : Int) then some (s.take hi.toNat) else none

/-- The slice expression `s[lo:hi]` on a slice whose capacity equals its length; it panics
unless `0 <= lo <= hi <= cap(s)`. -/
def slice (s : List Byte) (lo hi : Int) : Option (List Byte) :=
  if 0 ≤ lo ∧ lo ≤ hi ∧ hi ≤ (s.length : Int) then some ((s.take hi.toNat).drop lo.toNat)
  else none

/-- Go's builtin `copy(dst, src)`: copies `min(len(dst), len(src))` elements to the front of
`dst` and returns `dst` after the copy and the number of elements copied. -/
def goCopy (dst src : List Byte) : List Byte × Int :=
  let n := min dst.length src.length
  (src.take n ++ dst.drop n, (n : Int))

/-- `NewPeekBuffer(size)`: `make([]byte, size)` panics for a negative size; `Len` is left at
its zero value. -/
def NewPeekBuffer (size : Int) : Option PeekBuffer :=
  if 0 ≤ size then
    some { Buffer := List.replicate size.toNat 0, Cap := size, Len := 0, Pos := 0 }
  else none

/-- Results of `Write`: the receiver after the call, `n` and `err`. -/
structure WriteResult where
  r : PeekBuffer
  n : Int
  err : Option Error
deriving DecidableEq

/-- Results of `Read`: the receiver after the call, the destination after the call, `n` and
`err`. -/
structure ReadResult where
  r : PeekBuffer
  p : List Byte
  n : Int
  err : Option Error
deriving DecidableEq

/-- The three-way branch of `Write` (lines 45-61): the backing array, `Pos` and `written`
after it. -/
def writeCopy (r : PeekBuffer) (p : List Byte) : Option (List Byte × Int × Int) :=
  if (p.length : Int) ≤ r.Cap - r.Pos then do
    -- case 1: written = copy(r.Buffer[r.Pos:], p); r.Pos += written
    let dst ← sliceFrom r.Buffer r.Pos
    let c := goCopy dst p
    pure (r.Buffer.take r.Pos.toNat ++ c.1, r.Pos + c.2, c.2)
  else if (p.length : Int) ≥ r.Cap then do
    -- case 2: written = copy(r.Buffer, p[len(p)-r.Cap:]); r.Pos = 0
    let src ← sliceFrom p ((p.length : Int) - r.Cap)
    let c := goCopy r.Buffer src
    pure (c.1, 0, c.2)
  else do
    -- case 3: two copies, the second from the start of the array
    let dst ← sliceFrom r.Buffer r.Pos
    let c1 := goCopy dst p
    let buf1 := r.Buffer.take r.Pos.toNat ++ c1.1
    let remaining := r.Cap - r.Pos
    let src ← sliceFrom p remaining
    let c2 := goCopy buf1 src
    pure (c2.1, (p.length : Int) - remaining, c1.2 + c2.2)

/-- The method `Write`. -/
def Write (r : PeekBuffer) (p : List Byte) : Option WriteResult := do
  let (buf, pos, written) ← writeCopy r p
  -- if r.Pos >= r.Cap { r.Pos = 0 }
  let pos := if pos ≥ r.Cap then 0 else pos
  -- if r.Len < r.Cap { r.Len += written; if r.Len > r.Cap { r.Len = r.Cap } }
  let len :=
    if r.Len < r.Cap then
      (if r.Len + written > r.Cap then r.Cap else r.Len + written)
    else r.Len
  pure { r := { Buffer := buf, Cap := r.Cap, Len := len, Pos := pos },
         n := (p.length : Int), err := none }

/-- The body of `Read` after `readlen` is fixed (lines 96-112). -/
def readCopy (r : PeekBuffer) (p : List Byte) (readlen : Int) : Option ReadResult :=
  -- readPos = r.Pos; if r.Pos >= r.Len { readPos = 0 }
  let readPos : Int := if r.Pos ≥ r.Len then 0 else r.Pos
  if readPos + readlen ≤ r.Len then do
    -- case 1: n = copy(p, r.Buffer[readPos:readPos+readlen])
    let src ← slice r.Buffer readPos (readPos + readlen)
    let c := goCopy p src
    pure { r := r, p := c.1, n := c.2, err := none }
  else do
    -- case 2: n = copy(p, r.Buffer[r.Pos:]); n += copy(p[n:], r.Buffer[:readlen-remaining])
    let remaining := r.Cap - r.Pos
    let src1 ← sliceFrom r.Buffer r.Pos
    let c1 := goCopy p src1
    let dst2 ← sliceFrom c1.1 c1.2
    let src2 ← sliceTo r.Buffer (readlen - remaining)
    let c2 := goCopy dst2 src2
    pure { r := r, p := c1.1.take c1.2.toNat ++ c2.1, n := c1.2 + c2.2, err := none }

/-- The method `Read`. -/
def Read (r : PeekBuffer) (p : List Byte) : Option ReadResult :=
  if (p.length : Int) > r.Len then
    -- readlen = r.Len
    if r.Len = 0 then
      -- return 0, io.ErrUnexpectedEOF
      some { r := r, p := p, n := 0, err := some Error.ErrUnexpectedEOF }
    else readCopy r p r.Len
  else readCopy r p (p.length : Int)

/-- The method `Reset`. -/
def Reset (r : PeekBuffer) : PeekBuffer :=
  { r with Len := 0, Pos := 0 }

/-- The method `Bytes`: the receiver after the call and the returned slice.  `make([]byte,
r.Len)` panics for a negative `Len`; the results of the inner `Read` are discarded. -/
def Bytes (r : PeekBuffer) : Option (PeekBuffer × List Byte) :=
  if r.Len < 0 then none
  else
    let res : List Byte := List.replicate r.Len.toNat 0
    if r.Len > 0 then do
      let rr ← Read r res
      pure (rr.r, rr.p)
    else pure (r, res)

/-- The method `String`: `string(r.Bytes())`, the same byte sequence as a Go string. -/
def String (r : PeekBuffer) : Option (PeekBuffer × List Byte) :=
  Bytes r

/-- One method call on a buffer. -/
inductive Op where
  | write (p : List Byte)
  | reset
  | read (p : List Byte)
  | bytes
  | string
deriving DecidableEq

/-- The receiver after one call (`none` when the call panics). -/
def step (r : PeekBuffer) : Op → Option PeekBuffer
  | .write p => (Write r p).map (fun res => res.r)
  | .reset => some (Reset r)
  | .read p => (Read r p).map (fun res => res.r)
  | .bytes => (Bytes r).map (fun res => res.1)
  | .string => (String r).map (fun res => res.1)

/-- The receiver after a sequence of calls, in order. -/
def run (r : PeekBuffer) : List Op → Option PeekBuffer
  | [] => some r
  | op :: ops => (step r op).bind (fun r1 => run r1 ops)

/-- The bytes written since the last `Reset`, starting from the history `h`. -/
def history (h : List Byte) : List Op → List Byte
  | [] => h
  | .write p :: ops => history (h ++ p) ops
  | .reset :: ops => history [] ops
  | _ :: ops => history h ops

/-- A state is reachable for size `c` when some sequence of calls leads to it from
`NewPeekBuffer(c)`. -/
def Reachable (c : Int) (r : PeekBuffer) : Prop :=
  ∃ r0 ops, NewPeekBuffer c = some r0 ∧ run r0 ops = some r

/-- The last `n` elements of a list (the whole list when it is shorter). -/
def lastN (n : Nat) (l : List Byte) : List Byte :=
  l.drop (l.length - n)

/-! ### Abstraction of a state, used to state and prove the properties -/

/-- The bytes a state holds, oldest first: the prefix of the array while `Pos >= Len` (the
array has not been filled yet), the array rotated at `Pos` otherwise. -/
def contents (r : PeekBuffer) : List Byte :=
  if r.Pos ≥ r.Len then r.Buffer.take r.Len.toNat
  else r.Buffer.drop r.Pos.toNat ++ r.Buffer.take r.Pos.toNat

/-- Well-formed states of capacity `c`: the array has `c` cells and the state is either filling
(`Len = Pos < c`) or full (`Len = c`, `Pos < c`). -/
structure WF (c : Nat) (r : PeekBuffer) : Prop where
  cap : r.Cap = (c : Int)
  buf : r.Buffer.length = c
  phase : (∃ k : Nat, k < c ∧ r.Len = (k : Int) ∧ r.Pos = (k : Int)) ∨
    (∃ k : Nat, k < c ∧ r.Len = (c : Int) ∧ r.Pos = (k : Int))

/-- The backing array after `Write`, for an array of `c` cells and `Pos = k`. -/
def wBuf (b p : List Byte) (c k : Nat) : List Byte :=
  if p.length ≤ c - k then b.take k ++ p ++ b.drop (k + p.length)
  else if c ≤ p.length then p.drop (p.length - c)
  else p.drop (c - k) ++ (b.take k).drop (p.length - (c - k)) ++ p.take (c - k)

/-- The write position after `Write` of `m` bytes at `Pos = k` with capacity `c`. -/
def wPos (c k m : Nat) : Nat :=
  if m ≤ c - k then (if c ≤ k + m then 0 else k + m)
  else if c ≤ m then 0 else m - (c - k)

/-! ### Concrete states from the test file -/

/-- The calls of `TestPeekBufferReadOverfillWrap`: "123" written four times. -/
def overfillOps : List Op :=
  [.write [49, 50, 51], .write [49, 50, 51], .write [49, 50, 51], .write [49, 50, 51]]

/-- The state those calls leave in a buffer of size 10: the array holds "2331231231", the
oldest byte is at `Pos = 2`. -/
def overfilled : PeekBuffer :=
  { Buffer := [50, 51, 51, 49, 50, 51, 49, 50, 51, 49], Cap := 10, Len := 10, Pos := 2 }

/-- A fresh buffer of size 10. -/
def fresh10 : PeekBuffer :=
  { Buffer := List.replicate 10 0, Cap := 10, Len := 0, Pos := 0 }

/-! ### The lock protocol

The methods bracket their bodies with calls on the `sync.RWMutex` field `Lock`.  The mutex is
part of Go's standard library; its behaviour below follows the documentation of the `sync`
package: any number of read locks may be held together, the write lock is exclusive, and
"if any goroutine calls `Lock` while the lock is already held by one or more readers,
concurrent calls to `RLock` will block until the writer has acquired (and released) the
lock", which "prohibits recursive read-locking". -/

/-- The events of the calls on `r.Lock`.  A call of `Lock()` is two events: `lockBegin`
announces the writer (from then on `RLock()` blocks), `lockEnd` is the return of the call,
possible once no read lock is held. -/
inductive LockEvent where
  | rlock
  | runlock
  | lockBegin
  | lockEnd
  | unlock
deriving DecidableEq

/-- The writer side of the mutex: no writer, a writer blocked in `Lock()`, a writer holding
the lock. -/
inductive WriterState where
  | absent
  | waiting
  | holding
deriving DecidableEq

/-- State of the `sync.RWMutex`: the number of read locks held and the writer. -/
structure RWMutex where
  readers : Nat
  writer : WriterState
deriving DecidableEq

/-- The mutex after an event, `none` when the calling goroutine has to block. -/
def RWMutex.fire (m : RWMutex) : LockEvent → Option RWMutex
  | .rlock => if m.writer = .absent then some { m with readers := m.readers + 1 } else none
  | .runlock => if 0 < m.readers then some { m with readers := m.readers - 1 } else none
  | .lockBegin => if m.writer = .absent then some { m with writer := .waiting } else none
  | .lockEnd =>
    if m.writer = .waiting ∧ m.readers = 0 then some { m with writer := .holding } else none
  | .unlock => if m.writer = .holding then some { m with writer := .absent } else none

/-- The lock events of one method call in program order, for a call that finds the buffer in
state `r`: `Write` and `Reset` take the write lock, `Read` a read lock, and `Bytes` (so also
`String`) a read lock inside which, when `r.Len > 0`, it calls `Read`, which takes a second
read lock before the first is released. -/
def lockEvents (r : PeekBuffer) : Op → List LockEvent
  | .write _ => [.lockBegin, .lockEnd, .unlock]
  | .reset => [.lockBegin, .lockEnd, .unlock]
  | .read _ => [.rlock, .runlock]
  | .bytes => if r.Len > 0 then [.rlock, .rlock, .runlock, .runlock] else [.rlock, .runlock]
  | .string => if r.Len > 0 then [.rlock, .rlock, .runlock, .runlock] else [.rlock, .runlock]

/-- Goroutines running one call each on the same buffer: the mutex and, per goroutine, the
lock events it has still to perform. -/
structure Sys where
  lock : RWMutex
  threads : List (List LockEvent)
deriving DecidableEq

/-- The calls `ops` started concurrently on a buffer in state `r`, the mutex free. -/
def Sys.start (r : PeekBuffer) (ops : List Op) : Sys :=
  { lock := { readers := 0, writer := .absent }, threads := ops.map (lockEvents r) }

/-- Goroutine `i` performs its next lock event; `none` when it has finished, does not exist
or is blocked. -/
def Sys.stepThread (s : Sys) (i : Nat) : Option Sys :=
  match s.threads[i]? with
  | some (e :: rest) =>
    (s.lock.fire e).map (fun m => { lock := m, threads := s.threads.set i rest })
  | _ => none

/-- The system after the goroutines have moved in the order of the schedule. -/
def Sys.runSchedule (s : Sys) : List Nat → Option Sys
  | [] => some s
  | i :: sched => (s.stepThread i).bind (fun s1 => s1.runSchedule sched)

/-- A deadlock: some goroutine has not finished its call and no goroutine can move. -/
def Sys.Deadlocked (s : Sys) : Prop :=
  (∃ t ∈ s.threads, t ≠ []) ∧ ∀ i : Nat, s.stepThread i = none

end PeekBuffer

namespace PeekBuffer

/-! ## Lists: the last elements of a list -/

theorem lastN_length (n : Nat) (l : List Byte) : (lastN n l).length = min n l.length := by
  unfold lastN; simp; omega

theorem lastN_of_length_le (n : Nat) (l : List Byte) (h : l.length ≤ n) : lastN n l = l := by
  unfold lastN; simp [Nat.sub_eq_zero_of_le h]

theorem lastN_append_of_le (n : Nat) (h p : List Byte) (hp : n ≤ p.length) :
    lastN n (h ++ p) = lastN n p := by
  unfold lastN
  rw [List.drop_append_eq_append_drop]
  have h1 : h.drop ((h ++ p).length - n) = [] := by
    apply List.drop_eq_nil_of_le; simp; omega
  rw [h1]; simp
  congr 1; omega

theorem lastN_append_of_ge (n : Nat) (h p : List Byte) (hp : p.length ≤ n) :
    lastN n (h ++ p) = lastN (n - p.length) h ++ p := by
  unfold lastN
  rw [List.drop_append_eq_append_drop]
  have h1 : (h ++ p).length - n - h.length = 0 := by simp; omega
  rw [h1]; simp
  congr 1; omega

theorem lastN_lastN (n k : Nat) (l : List Byte) (hk : k ≤ n) :
    lastN k (lastN n l) = lastN k l := by
  unfold lastN
  rw [List.drop_drop]; simp
  congr 1; omega

/-! ## The copy primitives and `Write` on a well-formed state -/

theorem goCopy_fst_of_le (dst src : List Byte) (h : src.length ≤ dst.length) :
    (goCopy dst src).1 = src ++ dst.drop src.length := by
  simp [goCopy, Nat.min_eq_right h]

theorem goCopy_fst_of_ge (dst src : List Byte) (h : dst.length ≤ src.length) :
    (goCopy dst src).1 = src.take dst.length := by
  simp [goCopy, Nat.min_eq_left h]

theorem goCopy_snd (dst src : List Byte) :
    (goCopy dst src).2 = ((min dst.length src.length : Nat) : Int) := rfl

theorem writeCopy_eq (b p : List Byte) (c L k : Nat) (hb : b.length = c) (hk : k ≤ c) :
    writeCopy { Buffer := b, Cap := c, Len := L, Pos := k } p = some (
      if p.length ≤ c - k then
        (b.take k ++ p ++ b.drop (k + p.length), ((k + p.length : Nat) : Int), (p.length : Int))
      else if c ≤ p.length then (p.drop (p.length - c), 0, (c : Int))
      else (p.drop (c - k) ++ (b.take k).drop (p.length - (c - k)) ++ p.take (c - k),
            ((p.length - (c - k) : Nat) : Int), (p.length : Int))) := by
  unfold writeCopy
  by_cases h1 : p.length ≤ c - k
  · have h1' : (p.length : Int) ≤ (c : Int) - (k : Int) := by omega
    simp only [h1, h1', if_true]
    have hs : sliceFrom b (k : Int) = some (b.drop k) := by
      simp [sliceFrom, hb, hk]
    simp only [hs, Option.bind_eq_bind, Option.some_bind, Option.pure_def]
    rw [goCopy_fst_of_le _ _ (by simp [hb]; omega), goCopy_snd]
    simp [hb, List.drop_drop, Nat.min_eq_right h1]
  · have h1' : ¬ (p.length : Int) ≤ (c : Int) - (k : Int) := by omega
    by_cases h2 : c ≤ p.length
    · have h2' : (p.length : Int) ≥ (c : Int) := by omega
      simp only [h1, h1', h2, h2', if_true, if_false]
      have hs : sliceFrom p ((p.length : Int) - (c : Int)) = some (p.drop (p.length - c)) := by
        simp [sliceFrom, h2, Int.toNat_sub]
      simp only [hs, Option.bind_eq_bind, Option.some_bind, Option.pure_def]
      rw [goCopy_fst_of_ge _ _ (by simp [hb]; omega), goCopy_snd]
      simp [hb]
      constructor <;> omega
    · have h2' : ¬ (p.length : Int) ≥ (c : Int) := by omega
      simp only [h1, h1', h2, h2', if_true, if_false]
      have hs : sliceFrom b (k : Int) = some (b.drop k) := by
        simp [sliceFrom, hb, hk]
      have hs2 : sliceFrom p ((c : Int) - (k : Int)) = some (p.drop (c - k)) := by
        have : c - k ≤ p.length := by omega
        simp [sliceFrom, hk, Int.toNat_sub, this]
        omega
      simp only [hs, hs2, Option.bind_eq_bind, Option.some_bind, Option.pure_def]
      rw [goCopy_fst_of_ge (b.drop k) p (by simp [hb]; omega)]
      rw [goCopy_fst_of_le _ _ (by simp [hb]; omega)]
      simp only [goCopy_snd]
      simp [hb]
      refine ⟨?_, ?_, ?_⟩
      · rw [List.drop_append_of_le_length (by simp [hb]; omega)]
      · omega
      · omega

theorem Write_eq (b p : List Byte) (c L k : Nat) (hb : b.length = c) (hk : k < c)
    (hL : L ≤ c) :
    Write { Buffer := b, Cap := c, Len := L, Pos := k } p =
      some { r := { Buffer := wBuf b p c k, Cap := c, Len := ((min c (L + p.length) : Nat) : Int),
                    Pos := (wPos c k p.length : Int) },
             n := (p.length : Int), err := none } := by
  simp only [Write, writeCopy_eq b p c L k hb (Nat.le_of_lt hk), Option.bind_eq_bind,
    Option.some_bind, Option.pure_def, wBuf, wPos]
  split_ifs <;> simp <;> omega

theorem contents_filling (b : List Byte) (c k : Nat) :
    contents { Buffer := b, Cap := c, Len := k, Pos := k } = b.take k := by
  simp [contents]

theorem contents_full (b : List Byte) (c k : Nat) (hk : k < c) :
    contents { Buffer := b, Cap := c, Len := c, Pos := k } = b.drop k ++ b.take k := by
  have : ¬ ((k : Int) ≥ (c : Int)) := by omega
  simp [contents, this]

theorem wPos_lt (c k m : Nat) (hk : k < c) : wPos c k m < c := by
  unfold wPos; split_ifs <;> omega

theorem wBuf_length (b p : List Byte) (c k : Nat) (hb : b.length = c) (hk : k < c) :
    (wBuf b p c k).length = c := by
  unfold wBuf; split_ifs <;> simp [hb] <;> omega

theorem wBuf_filling (b p : List Byte) (c k : Nat) (hb : b.length = c) (hk : k < c) :
    contents { Buffer := wBuf b p c k, Cap := c, Len := ((min c (k + p.length) : Nat) : Int),
               Pos := (wPos c k p.length : Int) } = lastN c (b.take k ++ p) := by
  by_cases h1 : p.length ≤ c - k
  · by_cases h2 : c ≤ k + p.length
    · have hm : min c (k + p.length) = c := by omega
      have hp : wPos c k p.length = 0 := by simp [wPos, h1, h2]
      rw [hm, hp, contents_full _ _ _ (by omega)]
      simp [wBuf, h1]
      rw [lastN_of_length_le _ _ (by simp [hb]; omega)]
      rw [List.drop_eq_nil_of_le (by omega)]
      simp
    · have hm : min c (k + p.length) = k + p.length := by omega
      have hp : wPos c k p.length = k + p.length := by simp [wPos, h1, h2]
      rw [hm, hp, contents_filling]
      simp [wBuf, h1]
      rw [lastN_of_length_le _ _ (by simp [hb]; omega)]
      rw [← List.append_assoc, List.take_left' (by simp [hb]; omega)]
  · by_cases h2 : c ≤ p.length
    · have hm : min c (k + p.length) = c := by omega
      have hp : wPos c k p.length = 0 := by simp [wPos, h1, h2]
      rw [hm, hp, contents_full _ _ _ (by omega), lastN_append_of_le _ _ _ h2]
      simp [wBuf, h1, h2, lastN]
    · have hm : min c (k + p.length) = c := by omega
      have hp : wPos c k p.length = p.length - (c - k) := by simp [wPos, h1, h2]
      rw [hm, hp, contents_full _ _ _ (by omega), lastN_append_of_ge _ _ _ (by omega)]
      simp only [wBuf, h1, h2, if_false, lastN]
      apply List.ext_getElem?
      intro i
      simp only [List.getElem?_take, List.getElem?_append, List.getElem?_drop, List.length_take,
        List.length_append, List.length_drop, hb]
      split_ifs <;> first | rfl | omega | (congr 1; omega) |
        (symm; apply List.getElem?_eq_none; omega)

theorem wBuf_full (b p : List Byte) (c k : Nat) (hb : b.length = c) (hk : k < c) :
    contents { Buffer := wBuf b p c k, Cap := c, Len := (c : Int),
               Pos := (wPos c k p.length : Int) } =
      lastN c ((b.drop k ++ b.take k) ++ p) := by
  rw [contents_full _ _ _ (wPos_lt c k _ hk)]
  by_cases h2 : c ≤ p.length
  · rw [lastN_append_of_le _ _ _ h2]
    by_cases h1 : p.length ≤ c - k
    · have hk0 : k = 0 := by omega
      subst hk0
      have hpc : p.length = c := by omega
      simp [wBuf, wPos, h1, h2, lastN, hpc, ← hb]
    · simp [wBuf, wPos, h1, h2, lastN]
  · rw [lastN_append_of_ge _ _ _ (by omega)]
    by_cases h1 : p.length ≤ c - k
    · by_cases h3 : c ≤ k + p.length
      · simp only [wBuf, wPos, lastN, h1, h2, h3, if_true, if_false]
        have e3 : (b.drop k ++ b.take k).length - (c - p.length) = p.length := by
          simp [hb]; omega
        have e4 : List.drop p.length (b.drop k ++ b.take k) = b.take k :=
          List.drop_left' (by simp [hb]; omega)
        have e5 : List.drop (k + p.length) b = [] := List.drop_eq_nil_of_le (by omega)
        rw [e3, e4, e5]
        simp
      · simp only [wBuf, wPos, lastN, h1, h2, h3, if_true, if_false]
        have e1 : (b.take k ++ p).length = k + p.length := by simp [hb]; omega
        have e3 : (b.drop k ++ b.take k).length - (c - p.length) = p.length := by
          simp [hb]; omega
        have e4 : List.drop p.length (b.drop k ++ b.take k) =
            b.drop (k + p.length) ++ b.take k := by
          rw [List.drop_append_of_le_length (by simp [hb]; omega), List.drop_drop]
        rw [List.drop_left' e1, List.take_left' e1, e3, e4]
        simp
    · simp only [wBuf, wPos, lastN, h1, h2, if_true, if_false]
      have e1 : (p.drop (c - k)).length = p.length - (c - k) := by simp
      rw [List.append_assoc, List.drop_left' e1, List.take_left' e1]
      have e2 : List.drop ((b.drop k ++ b.take k).length - (c - p.length)) (b.drop k) = [] := by
        apply List.drop_eq_nil_of_le
        simp [hb]; omega
      rw [List.drop_append_eq_append_drop, e2]
      simp only [List.nil_append, List.append_assoc, List.take_append_drop, List.length_append,
        List.length_drop, List.length_take, hb]
      congr 2
      omega

/-! ## `Read` on a well-formed state -/

theorem readCopy_filling (b p : List Byte) (c k : Nat) (hb : b.length = c) (hk : k < c) :
    readCopy { Buffer := b, Cap := c, Len := k, Pos := k } p ((min p.length k : Nat) : Int) =
      some { r := { Buffer := b, Cap := c, Len := k, Pos := k },
             p := b.take (min p.length k) ++ p.drop (min p.length k),
             n := ((min p.length k : Nat) : Int), err := none } := by
  have hs : slice b 0 ((min p.length k : Nat) : Int) = some (b.take (min p.length k)) := by
    have : min p.length k ≤ b.length := by omega
    simp [slice, this]
    omega
  simp only [readCopy, ge_iff_le, le_refl, if_true, zero_add, hs, Option.bind_eq_bind,
    Option.some_bind, Option.pure_def]
  have h1 : ((min p.length k : Nat) : Int) ≤ (k : Int) := by omega
  have hn : (b.take (min p.length k)).length = min p.length k := by simp [hb]; omega
  simp only [h1, if_true]
  rw [goCopy_fst_of_le _ _ (by rw [hn]; omega), goCopy_snd, hn]
  have : min p.length (min p.length k) = min p.length k := by omega
  rw [this]

theorem readCopy_full (b p : List Byte) (c k : Nat) (hb : b.length = c) (hk : k < c) :
    readCopy { Buffer := b, Cap := c, Len := c, Pos := k } p ((min p.length c : Nat) : Int) =
      some { r := { Buffer := b, Cap := c, Len := c, Pos := k },
             p := (b.drop k ++ b.take k).take (min p.length c) ++ p.drop (min p.length c),
             n := ((min p.length c : Nat) : Int), err := none } := by
  have hpos : ¬ ((k : Int) ≥ (c : Int)) := by omega
  by_cases h1 : k + min p.length c ≤ c
  · have h1' : (k : Int) + ((min p.length c : Nat) : Int) ≤ (c : Int) := by omega
    have hs : slice b (k : Int) ((k : Int) + ((min p.length c : Nat) : Int)) =
        some ((b.take (k + min p.length c)).drop k) := by
      have e : ((k : Int) + ((min p.length c : Nat) : Int)).toNat = k + min p.length c := by omega
      have : (k : Int) + ((min p.length c : Nat) : Int) ≤ (b.length : Int) := by omega
      simp only [slice, this, e]
      simp
    simp only [readCopy, hpos, if_false, h1', if_true, hs, Option.bind_eq_bind,
      Option.some_bind, Option.pure_def]
    have hn : ((b.take (k + min p.length c)).drop k).length = min p.length c := by
      simp [hb]; omega
    rw [goCopy_fst_of_le _ _ (by rw [hn]; omega), goCopy_snd, hn]
    have e1 : min p.length (min p.length c) = min p.length c := by omega
    have e2 : (b.drop k ++ b.take k).take (min p.length c) =
        (b.take (k + min p.length c)).drop k := by
      rw [List.take_append_of_le_length (by simp [hb]; omega), List.drop_take]
      simp
    rw [e1, e2]
  · have h1' : ¬ ((k : Int) + ((min p.length c : Nat) : Int) ≤ (c : Int)) := by omega
    have hs1 : sliceFrom b (k : Int) = some (b.drop k) := by
      simp [sliceFrom, hb]; omega
    have hd : (b.drop k).length = c - k := by simp [hb]
    have hc1 : goCopy p (b.drop k) = (b.drop k ++ p.drop (c - k), ((c - k : Nat) : Int)) := by
      apply Prod.ext
      · rw [goCopy_fst_of_le _ _ (by rw [hd]; omega), hd]
      · rw [goCopy_snd, hd]; simp only []; omega
    have hs2 : sliceFrom (b.drop k ++ p.drop (c - k)) ((c - k : Nat) : Int) =
        some (p.drop (c - k)) := by
      simp only [sliceFrom]
      rw [if_pos (by simp [hb]), Int.toNat_ofNat, List.drop_left' hd]
    have hs3 : sliceTo b (((min p.length c : Nat) : Int) - ((c : Int) - (k : Int))) =
        some (b.take (min p.length c - (c - k))) := by
      have e : (((min p.length c : Nat) : Int) - ((c : Int) - (k : Int))).toNat =
          min p.length c - (c - k) := by omega
      simp only [sliceTo, e]
      rw [if_pos (by omega)]
    have ht : (b.take (min p.length c - (c - k))).length = min p.length c - (c - k) := by
      simp [hb]
    simp only [readCopy, hpos, if_false, h1', hs1, hc1, hs2, hs3, Option.bind_eq_bind,
      Option.some_bind, Option.pure_def]
    rw [goCopy_fst_of_le _ _ (by rw [ht]; simp; omega), goCopy_snd, ht, Int.toNat_ofNat,
      List.take_left' hd, List.drop_drop]
    have e1 : (b.drop k ++ b.take k).take (min p.length c) =
        b.drop k ++ b.take (min p.length c - (c - k)) := by
      rw [List.take_append_eq_append_take, List.take_of_length_le (by rw [hd]; omega), hd,
        List.take_take]
      congr 2; omega
    have e2 : c - k + (min p.length c - (c - k)) = min p.length c := by omega
    have e3 : (((c - k : Nat) : Int) +
        ((min (p.drop (c - k)).length (min p.length c - (c - k)) : Nat) : Int)) =
        ((min p.length c : Nat) : Int) := by
      simp; omega
    rw [e1, e2, e3, List.append_assoc]

/-! ## Well-formed states -/

theorem WF.out {c : Nat} {r : PeekBuffer} (h : WF c r) :
    ∃ b k, b.length = c ∧ k < c ∧
      (r = { Buffer := b, Cap := c, Len := k, Pos := k } ∨
       r = { Buffer := b, Cap := c, Len := c, Pos := k }) := by
  obtain ⟨b, C, L, P⟩ := r
  obtain ⟨hcap, hbuf, hph⟩ := h
  simp only at hcap hbuf hph
  subst hcap
  rcases hph with ⟨k, hk, hL, hP⟩ | ⟨k, hk, hL, hP⟩
  · exact ⟨b, k, hbuf, hk, Or.inl (by rw [hL, hP])⟩
  · exact ⟨b, k, hbuf, hk, Or.inr (by rw [hL, hP])⟩

theorem WF_filling (b : List Byte) (c k : Nat) (hb : b.length = c) (hk : k < c) :
    WF c { Buffer := b, Cap := c, Len := k, Pos := k } :=
  ⟨rfl, hb, Or.inl ⟨k, hk, rfl, rfl⟩⟩

theorem WF_full (b : List Byte) (c k : Nat) (hb : b.length = c) (hk : k < c) :
    WF c { Buffer := b, Cap := c, Len := c, Pos := k } :=
  ⟨rfl, hb, Or.inr ⟨k, hk, rfl, rfl⟩⟩

theorem contents_length {c : Nat} {r : PeekBuffer} (h : WF c r) :
    ((contents r).length : Int) = r.Len := by
  obtain ⟨b, k, hb, hk, rfl | rfl⟩ := h.out
  · rw [contents_filling]; simp [hb]; omega
  · rw [contents_full _ _ _ hk]; simp [hb]; omega

/-- `Write` on a well-formed state: it returns `len(p), nil`, the state stays well formed and
holds the last `c` bytes of what it held followed by `p`. -/
theorem Write_WF {c : Nat} {r : PeekBuffer} (h : WF c r) (p : List Byte) :
    ∃ r1, Write r p = some { r := r1, n := (p.length : Int), err := none } ∧ WF c r1 ∧
      contents r1 = lastN c (contents r ++ p) := by
  obtain ⟨b, k, hb, hk, rfl | rfl⟩ := h.out
  · rw [Write_eq b p c k k hb hk (Nat.le_of_lt hk), contents_filling]
    refine ⟨_, rfl, ?_, wBuf_filling b p c k hb hk⟩
    by_cases h1 : k + p.length < c
    · have e1 : min c (k + p.length) = k + p.length := by omega
      have e2 : wPos c k p.length = k + p.length := by
        unfold wPos; split_ifs <;> omega
      rw [e1, e2]
      exact WF_filling _ _ _ (wBuf_length b p c k hb hk) h1
    · have e1 : min c (k + p.length) = c := by omega
      rw [e1]
      exact WF_full _ _ _ (wBuf_length b p c k hb hk) (wPos_lt c k _ hk)
  · rw [Write_eq b p c c k hb hk (Nat.le_refl c), contents_full _ _ _ hk]
    have e1 : min c (c + p.length) = c := by omega
    rw [e1]
    exact ⟨_, rfl, WF_full _ _ _ (wBuf_length b p c k hb hk) (wPos_lt c k _ hk),
      wBuf_full b p c k hb hk⟩

theorem Read_eq_readCopy (r : PeekBuffer) (p : List Byte) (L : Nat) (hL : r.Len = (L : Int))
    (h : L ≠ 0 ∨ p = []) :
    Read r p = readCopy r p ((min p.length L : Nat) : Int) := by
  unfold Read
  rw [hL]
  by_cases h1 : (p.length : Int) > (L : Int)
  · have h2 : L ≠ 0 := by
      rcases h with h | h
      · exact h
      · subst h; simp at h1; omega
    have h3 : ¬ ((L : Int) = 0) := by omega
    have h4 : ((min p.length L : Nat) : Int) = (L : Int) := by omega
    rw [if_pos h1, if_neg h3, h4]
  · have h4 : ((min p.length L : Nat) : Int) = (p.length : Int) := by omega
    rw [if_neg h1, h4]

theorem Read_WF_ok {c : Nat} {r : PeekBuffer} (h : WF c r) (p : List Byte)
    (hp : r.Len ≠ 0 ∨ p = []) :
    Read r p = some { r := r,
                      p := (contents r).take (min p.length (contents r).length) ++
                        p.drop (min p.length (contents r).length),
                      n := ((min p.length (contents r).length : Nat) : Int),
                      err := none } := by
  obtain ⟨b, k, hb, hk, rfl | rfl⟩ := h.out
  · have hp' : k ≠ 0 ∨ p = [] := by
      rcases hp with hp | hp
      · left; intro h0; apply hp; simp [h0]
      · exact Or.inr hp
    rw [Read_eq_readCopy _ p k rfl hp', readCopy_filling b p c k hb hk, contents_filling]
    have e1 : (b.take k).length = k := by simp [hb]; omega
    rw [e1, List.take_take]
    have e2 : min (min p.length k) k = min p.length k := by omega
    rw [e2]
  · have hp' : c ≠ 0 ∨ p = [] := Or.inl (by omega)
    rw [Read_eq_readCopy _ p c rfl hp', readCopy_full b p c k hb hk, contents_full _ _ _ hk]
    have e1 : (b.drop k ++ b.take k).length = c := by simp [hb]; omega
    rw [e1]

theorem Read_WF_empty (r : PeekBuffer) (p : List Byte) (hL : r.Len = 0) (hp : p ≠ []) :
    Read r p = some { r := r, p := p, n := 0, err := some Error.ErrUnexpectedEOF } := by
  unfold Read
  have h1 : (p.length : Int) > r.Len := by
    rw [hL]
    have : 0 < p.length := List.length_pos.mpr hp
    omega
  rw [if_pos h1, if_pos hL]

theorem Bytes_WF {c : Nat} {r : PeekBuffer} (h : WF c r) :
    Bytes r = some (r, contents r) := by
  have hlen := contents_length h
  unfold Bytes
  have h0 : ¬ (r.Len < 0) := by omega
  rw [if_neg h0]
  by_cases h1 : r.Len > 0
  · simp only [h1, if_true]
    rw [Read_WF_ok h _ (Or.inl (by omega))]
    simp only [Option.bind_eq_bind, Option.some_bind, Option.pure_def, List.length_replicate]
    have e : min r.Len.toNat (contents r).length = (contents r).length := by omega
    rw [e]
    simp
    omega
  · simp only [h1, if_false]
    have e : r.Len.toNat = 0 := by omega
    have e2 : (contents r).length = 0 := by omega
    rw [e, List.length_eq_zero.mp e2]
    rfl

/-! ## Sequences of calls -/

theorem Read_WF_total {c : Nat} {r : PeekBuffer} (h : WF c r) (p : List Byte) :
    ∃ res, Read r p = some res ∧ res.r = r := by
  by_cases h1 : r.Len ≠ 0 ∨ p = []
  · exact ⟨_, Read_WF_ok h p h1, rfl⟩
  · have h2 : r.Len = 0 := by
      by_contra h3; exact h1 (Or.inl h3)
    have h3 : p ≠ [] := fun h3 => h1 (Or.inr h3)
    exact ⟨_, Read_WF_empty r p h2 h3, rfl⟩

theorem NewPeekBuffer_eq (c : Nat) :
    NewPeekBuffer (c : Int) =
      some { Buffer := List.replicate c 0, Cap := c, Len := ((0 : Nat) : Int),
             Pos := ((0 : Nat) : Int) } := by
  simp [NewPeekBuffer]

theorem lastN_lastN_append (c : Nat) (h p : List Byte) :
    lastN c (lastN c h ++ p) = lastN c (h ++ p) := by
  by_cases hp : c ≤ p.length
  · rw [lastN_append_of_le _ _ _ hp, lastN_append_of_le _ _ _ hp]
  · rw [lastN_append_of_ge _ _ _ (by omega), lastN_append_of_ge _ _ _ (by omega),
      lastN_lastN _ _ _ (by omega)]

/-- The invariant linking a state to the bytes written since the last `Reset`. -/
theorem step_inv {c : Nat} (hc : 0 < c) {r : PeekBuffer} {h : List Byte} (hwf : WF c r)
    (hct : contents r = lastN c h) (op : Op) :
    ∃ r1, step r op = some r1 ∧ WF c r1 ∧ contents r1 = lastN c (history h [op]) := by
  cases op with
  | write p =>
    obtain ⟨r1, hw, hwf1, hc1⟩ := Write_WF hwf p
    refine ⟨r1, by simp [step, hw], hwf1, ?_⟩
    rw [hc1, hct, lastN_lastN_append]
    rfl
  | reset =>
    obtain ⟨b, k, hb, hk, rfl | rfl⟩ := hwf.out
    · exact ⟨_, rfl, WF_filling b c 0 hb hc, by simp [Reset, history, contents, lastN]⟩
    · exact ⟨_, rfl, WF_filling b c 0 hb hc, by simp [Reset, history, contents, lastN]⟩
  | read p =>
    obtain ⟨res, hr, hres⟩ := Read_WF_total hwf p
    exact ⟨r, by simp [step, hr, hres], hwf, hct⟩
  | bytes => exact ⟨r, by simp [step, Bytes_WF hwf], hwf, hct⟩
  | string => exact ⟨r, by simp [step, String, Bytes_WF hwf], hwf, hct⟩

theorem history_cons (h : List Byte) (op : Op) (ops : List Op) :
    history h (op :: ops) = history (history h [op]) ops := by
  cases op <;> rfl

theorem run_inv {c : Nat} (hc : 0 < c) (ops : List Op) :
    ∀ (r : PeekBuffer) (h : List Byte), WF c r → contents r = lastN c h →
      ∃ r1, run r ops = some r1 ∧ WF c r1 ∧ contents r1 = lastN c (history h ops) := by
  induction ops with
  | nil => intro r h hwf hct; exact ⟨r, rfl, hwf, hct⟩
  | cons op ops ih =>
    intro r h hwf hct
    obtain ⟨r1, hs, hwf1, hc1⟩ := step_inv hc hwf hct op
    obtain ⟨r2, hr, hwf2, hc2⟩ := ih r1 _ hwf1 hc1
    exact ⟨r2, by simp [run, hs, hr], hwf2, by rw [history_cons]; exact hc2⟩

theorem NewPeekBuffer_WF {c : Nat} (hc : 0 < c) :
    WF c { Buffer := List.replicate c 0, Cap := c, Len := ((0 : Nat) : Int),
           Pos := ((0 : Nat) : Int) } :=
  WF_filling _ c 0 (by simp) hc

/-- Every reachable state of a buffer of size `c >= 1` is well formed. -/
theorem Reachable.wf {c : Int} {r : PeekBuffer} (hc : 1 ≤ c) (h : Reachable c r) :
    WF c.toNat r := by
  obtain ⟨r0, ops, h0, hrun⟩ := h
  obtain ⟨n, rfl⟩ := Int.eq_ofNat_of_zero_le (by omega : 0 ≤ c)
  have hn : 0 < n := by omega
  rw [NewPeekBuffer_eq] at h0
  cases h0
  obtain ⟨r1, hr, hwf, -⟩ := run_inv hn ops _ [] (NewPeekBuffer_WF hn)
    (by simp [contents, lastN])
  rw [hrun] at hr
  cases hr
  simpa using hwf

theorem lastN_min (c : Nat) (h : List Byte) : lastN (min c h.length) h = lastN c h := by
  unfold lastN; congr 1; omega

theorem history_writes (h : List Byte) (ws : List (List Byte)) :
    history h (ws.map Op.write) = h ++ ws.flatten := by
  induction ws generalizing h with
  | nil => simp [history]
  | cons w ws ih => simp [history, ih]

/-- From a fresh buffer of size `c >= 1`, every sequence of calls runs without a panic and
ends in a well-formed state holding the last `c` bytes of the history. -/
theorem run_new {c : Int} (hc : 1 ≤ c) (ops : List Op) :
    ∃ r0 r, NewPeekBuffer c = some r0 ∧ run r0 ops = some r ∧ WF c.toNat r ∧
      contents r = lastN c.toNat (history [] ops) := by
  obtain ⟨n, rfl⟩ := Int.eq_ofNat_of_zero_le (by omega : 0 ≤ c)
  have hn : 0 < n := by omega
  obtain ⟨r1, hr, hwf, hct⟩ := run_inv hn ops _ [] (NewPeekBuffer_WF hn)
    (by simp [contents, lastN])
  exact ⟨_, r1, NewPeekBuffer_eq n, hr, by simpa using hwf, by simpa using hct⟩

theorem Write_nil_WF {c : Nat} {r : PeekBuffer} (h : WF c r) :
    Write r [] = some { r := r, n := 0, err := none } := by
  obtain ⟨b, k, hb, hk, rfl | rfl⟩ := h.out
  · rw [Write_eq b [] c k k hb hk (Nat.le_of_lt hk)]
    have e1 : wBuf b [] c k = b := by simp [wBuf]
    have e2 : wPos c k 0 = k := by unfold wPos; split_ifs <;> omega
    have e3 : min c (k + 0) = k := by omega
    simp only [List.length_nil, e1, e2, e3]
    rfl
  · rw [Write_eq b [] c c k hb hk (Nat.le_refl c)]
    have e1 : wBuf b [] c k = b := by simp [wBuf]
    have e2 : wPos c k 0 = k := by unfold wPos; split_ifs <;> omega
    have e3 : min c (c + 0) = c := by omega
    simp only [List.length_nil, e1, e2, e3]
    rfl

theorem Read_err_none (r : PeekBuffer) (p : List Byte) (res : ReadResult) (hL : r.Len ≠ 0)
    (h : Read r p = some res) : res.err = none := by
  have key : ∀ n : Int, readCopy r p n = some res → res.err = none := by
    intro n hn
    unfold readCopy at hn
    simp only [Option.bind_eq_bind, Option.pure_def] at hn
    split_ifs at hn
    all_goals first
      | (obtain ⟨src, -, h2⟩ := Option.bind_eq_some.mp hn
         cases h2; rfl)
      | (obtain ⟨src1, -, h2⟩ := Option.bind_eq_some.mp hn
         obtain ⟨dst2, -, h3⟩ := Option.bind_eq_some.mp h2
         obtain ⟨src2, -, h4⟩ := Option.bind_eq_some.mp h3
         cases h4; rfl)
  unfold Read at h
  split_ifs at h
  · exact key _ h
  · exact key _ h

/-! ## Further facts on well-formed states -/

theorem lastN_length_of_le (c : Nat) (p : List Byte) (h : c ≤ p.length) :
    (lastN c p).length = c := by
  rw [lastN_length]; omega

/-- A write of at least `c` bytes on a well-formed state leaves the last `c` bytes of the
input in the array, `Len = c` and `Pos = 0`, whatever the state was. -/
theorem Write_WF_oversized {c : Nat} {r : PeekBuffer} (h : WF c r) (p : List Byte)
    (hp : c ≤ p.length) :
    Write r p = some { r := { Buffer := lastN c p, Cap := c, Len := c, Pos := 0 },
                       n := (p.length : Int), err := none } := by
  have key : ∀ k : Nat, k < c → ∀ b : List Byte, b.length = c →
      wBuf b p c k = lastN c p ∧ wPos c k p.length = 0 := by
    intro k hk b hb
    by_cases h1 : p.length ≤ c - k
    · have hk0 : k = 0 := by omega
      subst hk0
      have hpc : p.length = c := by omega
      refine ⟨?_, by simp [wPos, h1, hp]⟩
      have e : List.drop (0 + p.length) b = [] := List.drop_eq_nil_of_le (by omega)
      simp only [wBuf, h1, if_true, List.take_zero, List.nil_append, e, List.append_nil]
      rw [lastN_of_length_le _ _ (by omega)]
    · simp [wBuf, wPos, h1, hp, lastN]
  obtain ⟨b, k, hb, hk, rfl | rfl⟩ := h.out
  · rw [Write_eq b p c k k hb hk (Nat.le_of_lt hk)]
    obtain ⟨e1, e2⟩ := key k hk b hb
    have e3 : min c (k + p.length) = c := by omega
    rw [e1, e2, e3]
    rfl
  · rw [Write_eq b p c c k hb hk (Nat.le_refl c)]
    obtain ⟨e1, e2⟩ := key k hk b hb
    have e3 : min c (c + p.length) = c := by omega
    rw [e1, e2, e3]
    rfl

/-- On a well-formed state the result of `Read` is a function of the held bytes and the
destination only. -/
theorem Read_WF_congr {c : Nat} {s t : PeekBuffer} (hs : WF c s) (ht : WF c t)
    (hct : contents s = contents t) (d : List Byte) :
    ∃ res1 res2, Read s d = some res1 ∧ Read t d = some res2 ∧ res1.n = res2.n ∧
      res1.err = res2.err ∧ res1.p = res2.p := by
  have hls := contents_length hs
  have hlt := contents_length ht
  have hlen : s.Len = t.Len := by rw [← hls, ← hlt, hct]
  by_cases h1 : s.Len ≠ 0 ∨ d = []
  · have h2 : t.Len ≠ 0 ∨ d = [] := by rw [← hlen]; exact h1
    refine ⟨_, _, Read_WF_ok hs d h1, Read_WF_ok ht d h2, ?_, rfl, ?_⟩
    · simp only [hct]
    · simp only [hct]
  · have h2 : s.Len = 0 := by
      by_contra h3; exact h1 (Or.inl h3)
    have h3 : d ≠ [] := fun h3 => h1 (Or.inr h3)
    exact ⟨_, _, Read_WF_empty s d h2 h3, Read_WF_empty t d (by rw [← hlen]; exact h2) h3,
      rfl, rfl, rfl⟩

/-- `Write` on a well-formed state, with the result spelled out field by field. -/
theorem Write_WF_fields {c : Nat} {r : PeekBuffer} (h : WF c r) (p : List Byte) :
    ∃ k L : Nat, r.Pos = (k : Int) ∧ r.Len = (L : Int) ∧ k < c ∧ L ≤ c ∧
      (L < c → L = k) ∧ r.Buffer.length = c ∧
      Write r p = some { r := { Buffer := wBuf r.Buffer p c k, Cap := c,
                                Len := ((min c (L + p.length) : Nat) : Int),
                                Pos := (wPos c k p.length : Int) },
                         n := (p.length : Int), err := none } := by
  obtain ⟨b, k, hb, hk, rfl | rfl⟩ := h.out
  · exact ⟨k, k, rfl, rfl, hk, Nat.le_of_lt hk, fun _ => rfl, hb,
      Write_eq b p c k k hb hk (Nat.le_of_lt hk)⟩
  · exact ⟨k, c, rfl, rfl, hk, Nat.le_refl c, fun h => absurd h (Nat.lt_irrefl c), hb,
      Write_eq b p c c k hb hk (Nat.le_refl c)⟩

theorem wPos_eq_mod (c k m : Nat) (hk : k < c) :
    wPos c k m = if c ≤ m then 0 else (k + m) % c := by
  unfold wPos
  by_cases h1 : m ≤ c - k
  · by_cases h2 : c ≤ k + m
    · have e : k + m = c := by omega
      by_cases h3 : c ≤ m
      · simp [h1, h2, h3]
      · simp [h1, h2, h3, e]
    · have h3 : ¬ c ≤ m := by omega
      simp only [h1, h2, h3, if_true, if_false]
      rw [Nat.mod_eq_of_lt (by omega)]
  · by_cases h3 : c ≤ m
    · simp [h1, h3]
    · simp only [h1, h3, if_false]
      rw [Nat.mod_eq_sub_mod (by omega), Nat.mod_eq_of_lt (by omega)]
      omega

/-! ## The cells of the array after `Write` -/

theorem add_mod_window (c k i : Nat) (hk : k < c) (hi : i < c) :
    (k + i) % c = if k + i < c then k + i else k + i - c := by
  by_cases h : k + i < c
  · rw [if_pos h, Nat.mod_eq_of_lt h]
  · rw [if_neg h, Nat.mod_eq_sub_mod (by omega), Nat.mod_eq_of_lt (by omega)]

/-- The cells of the written window hold the bytes of `p`. -/
theorem wBuf_window (b p : List Byte) (c k : Nat) (hb : b.length = c) (hk : k < c)
    (hp : p.length < c) (i : Nat) (hi : i < p.length) :
    (wBuf b p c k)[(k + i) % c]? = p[i]? := by
  rw [add_mod_window c k i hk (by omega)]
  unfold wBuf
  by_cases h1 : p.length ≤ c - k
  · have h2 : k + i < c := by omega
    simp only [h1, h2, if_true]
    simp only [List.getElem?_append, List.getElem?_take, List.getElem?_drop, List.length_take,
      List.length_append, List.length_drop, hb]
    split_ifs <;> first | rfl | omega | (congr 1; omega)
  · have h3 : ¬ c ≤ p.length := by omega
    simp only [h1, h3, if_false]
    by_cases h2 : k + i < c
    · simp only [h2, if_true]
      simp only [List.getElem?_append, List.getElem?_take, List.getElem?_drop, List.length_take,
        List.length_append, List.length_drop, hb]
      split_ifs <;> first | rfl | omega | (congr 1; omega)
    · simp only [h2, if_false]
      simp only [List.getElem?_append, List.getElem?_take, List.getElem?_drop, List.length_take,
        List.length_append, List.length_drop, hb]
      split_ifs <;> first | rfl | omega | (congr 1; omega)

/-- The cells outside the written window keep their bytes. -/
theorem wBuf_frame (b p : List Byte) (c k : Nat) (hb : b.length = c) (hk : k < c)
    (hp : p.length < c) (j : Nat) (hj : j < c)
    (hout : ∀ i : Nat, i < p.length → (k + i) % c ≠ j) :
    (wBuf b p c k)[j]? = b[j]? := by
  unfold wBuf
  by_cases h1 : p.length ≤ c - k
  · have hj2 : j < k ∨ k + p.length ≤ j := by
      by_contra hcon
      have h4 := hout (j - k) (by omega)
      rw [add_mod_window c k _ hk (by omega)] at h4
      split_ifs at h4 <;> omega
    simp only [h1, if_true]
    simp only [List.getElem?_append, List.getElem?_take, List.getElem?_drop, List.length_take,
      List.length_append, List.length_drop, hb]
    split_ifs <;> first | rfl | omega | (congr 1; omega)
  · have h3 : ¬ c ≤ p.length := by omega
    have hj2 : p.length - (c - k) ≤ j ∧ j < k := by
      constructor
      · by_contra hcon
        have h4 := hout (j + (c - k)) (by omega)
        rw [add_mod_window c k _ hk (by omega)] at h4
        split_ifs at h4 <;> omega
      · by_contra hcon
        have h4 := hout (j - k) (by omega)
        rw [add_mod_window c k _ hk (by omega)] at h4
        split_ifs at h4 <;> omega
    simp only [h1, h3, if_false]
    simp only [List.getElem?_append, List.getElem?_take, List.getElem?_drop, List.length_take,
      List.length_append, List.length_drop, hb]
    split_ifs <;> first | rfl | omega | (congr 1; omega)

/-! ## The degenerate buffer of size 0 -/

theorem Write_zero (p : List Byte) :
    Write { Buffer := [], Cap := 0, Len := 0, Pos := 0 } p =
      some { r := { Buffer := [], Cap := 0, Len := 0, Pos := 0 },
             n := (p.length : Int), err := none } := by
  cases p with
  | nil => decide
  | cons x xs =>
    have h1 : ¬ (((x :: xs).length : Nat) : Int) ≤ 0 - 0 := by
      simp only [List.length_cons]; omega
    have h2 : (((x :: xs).length : Nat) : Int) ≥ 0 := by omega
    have hs : sliceFrom (x :: xs) ((((x :: xs).length : Nat) : Int) - 0) = some [] := by
      simp [sliceFrom]
      omega
    simp only [Write, writeCopy, h1, h2, if_true, if_false, hs, Option.bind_eq_bind,
      Option.some_bind, Option.pure_def]
    simp [goCopy]

theorem Read_zero (d : List Byte) :
    ∃ res, Read { Buffer := [], Cap := 0, Len := 0, Pos := 0 } d = some res ∧
      res.r = { Buffer := [], Cap := 0, Len := 0, Pos := 0 } := by
  cases d with
  | nil =>
    exact ⟨{ r := { Buffer := [], Cap := 0, Len := 0, Pos := 0 }, p := [], n := 0, err := none },
      by decide, rfl⟩
  | cons x xs => exact ⟨_, Read_WF_empty _ (x :: xs) rfl (by simp), rfl⟩

theorem Bytes_zero :
    Bytes { Buffer := [], Cap := 0, Len := 0, Pos := 0 } =
      some ({ Buffer := [], Cap := 0, Len := 0, Pos := 0 }, []) := by
  decide

theorem step_zero (op : Op) :
    step { Buffer := [], Cap := 0, Len := 0, Pos := 0 } op =
      some { Buffer := [], Cap := 0, Len := 0, Pos := 0 } := by
  cases op with
  | write p => simp [step, Write_zero]
  | reset => rfl
  | read d =>
    obtain ⟨res, hr, hres⟩ := Read_zero d
    simp [step, hr, hres]
  | bytes => simp [step, Bytes_zero]
  | string => simp [step, String, Bytes_zero]

theorem run_zero (ops : List Op) :
    run { Buffer := [], Cap := 0, Len := 0, Pos := 0 } ops =
      some { Buffer := [], Cap := 0, Len := 0, Pos := 0 } := by
  induction ops with
  | nil => rfl
  | cons op ops ih => simp [run, step_zero, ih]

/-! ## The lock protocol -/

/-- A `Read` and a `Write` started together both finish (here with the reader first). -/
theorem read_write_completes :
    (Sys.start overfilled [.read [0], .write [65]]).runSchedule [0, 1, 0, 1, 1] =
      some { lock := { readers := 0, writer := .absent }, threads := [[], []] } := by
  decide

/-! ## Reachable example states -/

theorem overfilled_reachable : Reachable 10 overfilled :=
  ⟨fresh10, overfillOps, by decide, by decide⟩

theorem fresh10_reachable : Reachable 10 fresh10 :=
  ⟨fresh10, [], by decide, by decide⟩

/-! ## The claims -/

/-- C1: retention of the newest bytes. For every size `c >= 1` and every sequence of calls on
`NewPeekBuffer(c)` (writes and resets, and also reads, which do not change the history), no
call panics and `Bytes()` returns exactly the last `min(c, len(h))` bytes of `h`, oldest first,
where `h` is the concatenation of the byte sequences written since construction or the last
`Reset`. -/
theorem C1_retention_of_newest_bytes (c : Int) (hc : 1 ≤ c) (ops : List Op) :
    ∃ r0 r, NewPeekBuffer c = some r0 ∧ run r0 ops = some r ∧
      (Bytes r).map Prod.snd =
        some (lastN (min c.toNat (history [] ops).length) (history [] ops)) := by
  obtain ⟨r0, r, h0, hr, hwf, hct⟩ := run_new hc ops
  refine ⟨r0, r, h0, hr, ?_⟩
  rw [Bytes_WF hwf, lastN_min, hct]
  rfl

theorem C1_retention_of_newest_bytes_witness :
    (1 : Int) ≤ 10 ∧ ∃ r0 r, NewPeekBuffer 10 = some r0 ∧ run r0 overfillOps = some r ∧
      (Bytes r).map Prod.snd =
        some (lastN (min (10 : Int).toNat (history [] overfillOps).length)
          (history [] overfillOps)) :=
  ⟨by decide, C1_retention_of_newest_bytes 10 (by decide) overfillOps⟩

/-- C2: round trip. For every size `c >= 1` and every sequence of `Write` calls on
`NewPeekBuffer(c)` whose total length is at most `c`, `Bytes()` returns the concatenation of
the written sequences in call order, and so does a `Read` into any destination of exactly
`Len` bytes (with `n` the total length and a nil error). -/
theorem C2_round_trip (c : Int) (hc : 1 ≤ c) (ws : List (List Byte))
    (hlen : (ws.flatten.length : Int) ≤ c) :
    ∃ r0 r, NewPeekBuffer c = some r0 ∧ run r0 (ws.map Op.write) = some r ∧
      (Bytes r).map Prod.snd = some ws.flatten ∧
      ∀ d : List Byte, (d.length : Int) = r.Len →
        ∃ res, Read r d = some res ∧ res.p = ws.flatten ∧
          res.n = (ws.flatten.length : Int) ∧ res.err = none := by
  obtain ⟨r0, r, h0, hr, hwf, hct⟩ := run_new hc (ws.map Op.write)
  rw [history_writes, List.nil_append, lastN_of_length_le _ _ (by omega)] at hct
  refine ⟨r0, r, h0, hr, by rw [Bytes_WF hwf, hct]; rfl, ?_⟩
  intro d hd
  have hcl := contents_length hwf
  have hp : r.Len ≠ 0 ∨ d = [] := by
    by_cases h0 : r.Len = 0
    · right; apply List.length_eq_zero.mp; omega
    · exact Or.inl h0
  have e : min d.length (contents r).length = (contents r).length := by omega
  have e2 : List.drop (contents r).length d = [] := List.drop_eq_nil_of_le (by omega)
  refine ⟨_, Read_WF_ok hwf d hp, ?_, ?_, rfl⟩
  · show List.take (min d.length (contents r).length) (contents r) ++
      List.drop (min d.length (contents r).length) d = ws.flatten
    rw [e, e2, List.take_length, List.append_nil, hct]
  · show ((min d.length (contents r).length : Nat) : Int) = (ws.flatten.length : Int)
    rw [e, hct]

theorem C2_round_trip_witness :
    (1 : Int) ≤ 10 ∧
    ((([[49, 50], [], [51, 52, 53]] : List (List Byte)).flatten.length : Nat) : Int) ≤ 10 ∧
    ∃ r0 r, NewPeekBuffer 10 = some r0 ∧
      run r0 (([[49, 50], [], [51, 52, 53]] : List (List Byte)).map Op.write) = some r ∧
      (Bytes r).map Prod.snd = some ([[49, 50], [], [51, 52, 53]] : List (List Byte)).flatten ∧
      ∀ d : List Byte, (d.length : Int) = r.Len →
        ∃ res, Read r d = some res ∧
          res.p = ([[49, 50], [], [51, 52, 53]] : List (List Byte)).flatten ∧
          res.n = ((([[49, 50], [], [51, 52, 53]] : List (List Byte)).flatten.length : Nat) : Int)
          ∧ res.err = none :=
  ⟨by decide, by decide,
    C2_round_trip 10 (by decide) [[49, 50], [], [51, 52, 53]] (by decide)⟩

/-- C3: `Write` never rejects input. In every state reachable from `NewPeekBuffer(c)`,
`c >= 1`, and for every byte sequence `p` of any length, `Write(p)` returns (it does not
panic) with `n = len(p)` and a nil error. -/
theorem C3_write_never_rejects (c : Int) (hc : 1 ≤ c) (r : PeekBuffer) (hr : Reachable c r)
    (p : List Byte) :
    ∃ res, Write r p = some res ∧ res.n = (p.length : Int) ∧ res.err = none := by
  obtain ⟨r1, hw, -, -⟩ := Write_WF (hr.wf hc) p
  exact ⟨_, hw, rfl, rfl⟩

theorem C3_write_never_rejects_witness :
    (1 : Int) ≤ 10 ∧ Reachable 10 overfilled ∧
    ∃ res, Write overfilled (List.replicate 37 65) = some res ∧
      res.n = (((List.replicate 37 65 : List Byte).length : Nat) : Int) ∧ res.err = none :=
  ⟨by decide, overfilled_reachable,
    C3_write_never_rejects 10 (by decide) overfilled overfilled_reachable (List.replicate 37 65)⟩

/-- C4: capacity bound invariant. For every size `c >= 1`, every state reachable from
`NewPeekBuffer(c)` by `Write`, `Reset`, `Read`, `Bytes` and `String` calls has
`0 <= Len <= Cap`, `0 <= Pos < Cap`, `Cap = c` and `len(Buffer) = c`. -/
theorem C4_capacity_bound (c : Int) (hc : 1 ≤ c) (r : PeekBuffer) (hr : Reachable c r) :
    0 ≤ r.Len ∧ r.Len ≤ r.Cap ∧ 0 ≤ r.Pos ∧ r.Pos < r.Cap ∧ r.Cap = c ∧
      (r.Buffer.length : Int) = c := by
  have hwf := hr.wf hc
  obtain ⟨n, rfl⟩ := Int.eq_ofNat_of_zero_le (by omega : 0 ≤ c)
  rw [Int.toNat_ofNat] at hwf
  obtain ⟨hcap, hbuf, hph⟩ := hwf
  rcases hph with ⟨k, hk, hL, hP⟩ | ⟨k, hk, hL, hP⟩ <;>
  · rw [hcap, hL, hP, hbuf]
    omega

theorem C4_capacity_bound_witness :
    (1 : Int) ≤ 10 ∧ Reachable 10 overfilled ∧
    0 ≤ overfilled.Len ∧ overfilled.Len ≤ overfilled.Cap ∧ 0 ≤ overfilled.Pos ∧
      overfilled.Pos < overfilled.Cap ∧ overfilled.Cap = 10 ∧
      (overfilled.Buffer.length : Int) = 10 :=
  ⟨by decide, overfilled_reachable,
    C4_capacity_bound 10 (by decide) overfilled overfilled_reachable⟩


/-- C5: the read count saturates to the held length. In every reachable state with `Len > 0`
and for every destination `p`, `Read(p)` returns a nil error and `n = min(len(p), Len)`; a
destination larger than `Len` gets `n = Len`. -/
theorem C5_read_count_saturates (c : Int) (hc : 1 ≤ c) (r : PeekBuffer) (hr : Reachable c r)
    (hL : 0 < r.Len) (p : List Byte) :
    ∃ res, Read r p = some res ∧ res.err = none ∧ res.n = min (p.length : Int) r.Len ∧
      (r.Len < (p.length : Int) → res.n = r.Len) := by
  have hwf := hr.wf hc
  have hcl := contents_length hwf
  refine ⟨_, Read_WF_ok hwf p (Or.inl (by omega)), rfl, ?_, ?_⟩
  · show ((min p.length (contents r).length : Nat) : Int) = min (p.length : Int) r.Len
    omega
  · intro hlt
    show ((min p.length (contents r).length : Nat) : Int) = r.Len
    omega

theorem C5_read_count_saturates_witness :
    (1 : Int) ≤ 10 ∧ Reachable 10 overfilled ∧ 0 < overfilled.Len ∧
    ∃ res, Read overfilled (List.replicate 37 0) = some res ∧ res.err = none ∧
      res.n = min (((List.replicate 37 0 : List Byte).length : Nat) : Int) overfilled.Len ∧
      (overfilled.Len < (((List.replicate 37 0 : List Byte).length : Nat) : Int) →
        res.n = overfilled.Len) :=
  ⟨by decide, overfilled_reachable, by decide,
    C5_read_count_saturates 10 (by decide) overfilled overfilled_reachable (by decide)
      (List.replicate 37 0)⟩

/-- C6: `Read` delivers the oldest bytes first. In every reachable state with `Len > 0` and for
every destination `p`, after `Read(p)` returns `n`, the first `n` bytes of `p` are the first `n`
bytes of `Bytes()`, also when the read crosses the end of the backing array, and the bytes
`p[n:]` are unchanged. -/
theorem C6_read_oldest_first (c : Int) (hc : 1 ≤ c) (r : PeekBuffer) (hr : Reachable c r)
    (hL : 0 < r.Len) (p : List Byte) :
    ∃ res bs, Read r p = some res ∧ (Bytes r).map Prod.snd = some bs ∧
      res.p.take res.n.toNat = bs.take res.n.toNat ∧
      res.p.drop res.n.toNat = p.drop res.n.toNat ∧ res.p.length = p.length := by
  have hwf := hr.wf hc
  have hcl := contents_length hwf
  refine ⟨_, contents r, Read_WF_ok hwf p (Or.inl (by omega)), by rw [Bytes_WF hwf]; rfl, ?_⟩
  simp only [Int.toNat_ofNat]
  have e : (List.take (min p.length (contents r).length) (contents r)).length =
      min p.length (contents r).length := by
    simp
  refine ⟨?_, ?_, ?_⟩
  · rw [List.take_left' e]
  · rw [List.drop_left' e]
  · simp only [List.length_append, List.length_take, List.length_drop]
    omega

theorem C6_read_oldest_first_witness :
    (1 : Int) ≤ 10 ∧ Reachable 10 overfilled ∧ 0 < overfilled.Len ∧
    ∃ res bs, Read overfilled [0, 0, 0, 0, 0, 0, 0, 0, 0, 0, 7, 7] = some res ∧
      (Bytes overfilled).map Prod.snd = some bs ∧
      res.p.take res.n.toNat = bs.take res.n.toNat ∧
      res.p.drop res.n.toNat =
        ([0, 0, 0, 0, 0, 0, 0, 0, 0, 0, 7, 7] : List Byte).drop res.n.toNat ∧
      res.p.length = ([0, 0, 0, 0, 0, 0, 0, 0, 0, 0, 7, 7] : List Byte).length :=
  ⟨by decide, overfilled_reachable, by decide,
    C6_read_oldest_first 10 (by decide) overfilled overfilled_reachable (by decide)
      [0, 0, 0, 0, 0, 0, 0, 0, 0, 0, 7, 7]⟩

/-- C7: empty-read failure. In every reachable state with `Len = 0` and for every non-empty
destination `p`, `Read(p)` returns `n = 0` with `io.ErrUnexpectedEOF` and leaves `p` unchanged;
in a reachable state with `Len > 0` `Read` returns with a nil error; and in no state at all
with `Len` other than 0 does a `Read` that returns give an error. -/
theorem C7_empty_read_failure (c : Int) (hc : 1 ≤ c) (r : PeekBuffer) (hr : Reachable c r) :
    (r.Len = 0 → ∀ p : List Byte, p ≠ [] →
      Read r p = some { r := r, p := p, n := 0, err := some Error.ErrUnexpectedEOF }) ∧
    (0 < r.Len → ∀ p : List Byte, ∃ res, Read r p = some res ∧ res.err = none) ∧
    (∀ (s : PeekBuffer) (p : List Byte) (res : ReadResult),
      s.Len ≠ 0 → Read s p = some res → res.err = none) := by
  refine ⟨fun h0 p hp => Read_WF_empty r p h0 hp, ?_, fun s p res hs h => Read_err_none s p res hs h⟩
  intro hL p
  exact ⟨_, Read_WF_ok (hr.wf hc) p (Or.inl (by omega)), rfl⟩

theorem C7_empty_read_failure_witness :
    (1 : Int) ≤ 10 ∧ Reachable 10 fresh10 ∧
    ((fresh10.Len = 0 → ∀ p : List Byte, p ≠ [] →
      Read fresh10 p = some { r := fresh10, p := p, n := 0,
                              err := some Error.ErrUnexpectedEOF }) ∧
    (0 < fresh10.Len → ∀ p : List Byte, ∃ res, Read fresh10 p = some res ∧ res.err = none) ∧
    (∀ (s : PeekBuffer) (p : List Byte) (res : ReadResult),
      s.Len ≠ 0 → Read s p = some res → res.err = none)) :=
  ⟨by decide, fresh10_reachable, C7_empty_read_failure 10 (by decide) fresh10 fresh10_reachable⟩

/-- C8: on a fresh buffer of size 10 (`Len = 0`) a `Read` into a destination of length 0
returns `n = 0` with a nil error, not `io.ErrUnexpectedEOF`: the empty-buffer test of the code
sits inside the branch `len(p) > r.Len`. -/
theorem C8_read_empty_buffer_zero_length :
    fresh10.Len = 0 ∧ NewPeekBuffer 10 = some fresh10 ∧
    Read fresh10 [] = some { r := fresh10, p := [], n := 0, err := none } := by
  decide

/-- C9: zero-length requests are not errors. In every reachable state (also with `Len = 0`),
`Write` of an empty byte sequence returns `(0, nil)` and leaves `Buffer`, `Cap`, `Len` and `Pos`
unchanged, and `Read` into a zero-length destination returns `(0, nil)`. -/
theorem C9_zero_length_requests (c : Int) (hc : 1 ≤ c) (r : PeekBuffer) (hr : Reachable c r) :
    Write r [] = some { r := r, n := 0, err := none } ∧
    Read r [] = some { r := r, p := [], n := 0, err := none } := by
  have hwf := hr.wf hc
  refine ⟨Write_nil_WF hwf, ?_⟩
  rw [Read_WF_ok hwf [] (Or.inr rfl)]
  simp

theorem C9_zero_length_requests_witness :
    (1 : Int) ≤ 10 ∧ Reachable 10 fresh10 ∧
    Write fresh10 [] = some { r := fresh10, n := 0, err := none } ∧
    Read fresh10 [] = some { r := fresh10, p := [], n := 0, err := none } :=
  ⟨by decide, fresh10_reachable,
    C9_zero_length_requests 10 (by decide) fresh10 fresh10_reachable⟩

/-- C10: `Read` is a non-consuming snapshot. In every reachable state and for every destination
`p`, `Read(p)` returns with the receiver unchanged (`Buffer`, `Cap`, `Len`, `Pos`), so two
consecutive reads into destinations of the same length return the same `n`, the same error and
the same `n` bytes; `Bytes()` and `String()` also leave the receiver unchanged and return the
same bytes when called again. -/
theorem C10_read_non_consuming (c : Int) (hc : 1 ≤ c) (r : PeekBuffer) (hr : Reachable c r) :
    (∀ p : List Byte, ∃ res, Read r p = some res ∧ res.r = r) ∧
    (∀ p1 p2 : List Byte, p1.length = p2.length →
      ∃ res1 res2, Read r p1 = some res1 ∧ Read res1.r p2 = some res2 ∧
        res2.n = res1.n ∧ res2.err = res1.err ∧
        res2.p.take res2.n.toNat = res1.p.take res1.n.toNat) ∧
    (∃ r1 bs, Bytes r = some (r1, bs) ∧ r1 = r ∧ Bytes r1 = some (r1, bs)) ∧
    (∃ r1 bs, String r = some (r1, bs) ∧ r1 = r ∧ String r1 = some (r1, bs)) := by
  have hwf := hr.wf hc
  refine ⟨fun p => Read_WF_total hwf p, ?_, ⟨r, contents r, Bytes_WF hwf, rfl, Bytes_WF hwf⟩,
    ⟨r, contents r, Bytes_WF hwf, rfl, Bytes_WF hwf⟩⟩
  intro p1 p2 hlen
  by_cases h1 : r.Len ≠ 0 ∨ p1 = []
  · have h2 : r.Len ≠ 0 ∨ p2 = [] := by
      rcases h1 with h1 | h1
      · exact Or.inl h1
      · right; apply List.length_eq_zero.mp; rw [← hlen, h1]; rfl
    refine ⟨_, _, Read_WF_ok hwf p1 h1, Read_WF_ok hwf p2 h2, ?_, rfl, ?_⟩
    · simp only [hlen]
    · simp only [Int.toNat_ofNat, hlen]
      have e : (List.take (min p2.length (contents r).length) (contents r)).length =
          min p2.length (contents r).length := by
        simp
      rw [List.take_left' e, List.take_left' e]
  · have h2 : r.Len = 0 := by
      by_contra h3; exact h1 (Or.inl h3)
    have h3 : p1 ≠ [] := fun h3 => h1 (Or.inr h3)
    have h4 : p2 ≠ [] := by
      intro h4; apply h3; apply List.length_eq_zero.mp; rw [hlen, h4]; rfl
    exact ⟨_, _, Read_WF_empty r p1 h2 h3, Read_WF_empty r p2 h2 h4, rfl, rfl, by simp⟩

theorem C10_read_non_consuming_witness :
    (1 : Int) ≤ 10 ∧ Reachable 10 overfilled ∧
    ((∀ p : List Byte, ∃ res, Read overfilled p = some res ∧ res.r = overfilled) ∧
    (∀ p1 p2 : List Byte, p1.length = p2.length →
      ∃ res1 res2, Read overfilled p1 = some res1 ∧ Read res1.r p2 = some res2 ∧
        res2.n = res1.n ∧ res2.err = res1.err ∧
        res2.p.take res2.n.toNat = res1.p.take res1.n.toNat) ∧
    (∃ r1 bs, Bytes overfilled = some (r1, bs) ∧ r1 = overfilled ∧
      Bytes r1 = some (r1, bs)) ∧
    (∃ r1 bs, String overfilled = some (r1, bs) ∧ r1 = overfilled ∧
      String r1 = some (r1, bs))) :=
  ⟨by decide, overfilled_reachable,
    C10_read_non_consuming 10 (by decide) overfilled overfilled_reachable⟩

/-- C11: `Bytes` is a total full snapshot. In every reachable state `Bytes()` returns (with the
receiver unchanged) a byte sequence of length exactly `Len`, equal to what a `Read` into any
destination of length `Len` leaves in that destination; for `Len = 0` it is the empty sequence
and no error surfaces; `String()` is the same bytes. -/
theorem C11_bytes_full_snapshot (c : Int) (hc : 1 ≤ c) (r : PeekBuffer)
    (hr : Reachable c r) :
    ∃ bs, Bytes r = some (r, bs) ∧ (bs.length : Int) = r.Len ∧
      (∀ d : List Byte, (d.length : Int) = r.Len →
        ∃ res, Read r d = some res ∧ res.p = bs) ∧
      (r.Len = 0 → bs = []) ∧ String r = some (r, bs) := by
  have hwf := hr.wf hc
  have hcl := contents_length hwf
  refine ⟨contents r, Bytes_WF hwf, hcl, ?_, ?_, Bytes_WF hwf⟩
  · intro d hd
    have hp : r.Len ≠ 0 ∨ d = [] := by
      by_cases h0 : r.Len = 0
      · right; apply List.length_eq_zero.mp; omega
      · exact Or.inl h0
    have e : min d.length (contents r).length = (contents r).length := by omega
    have e2 : List.drop (contents r).length d = [] := List.drop_eq_nil_of_le (by omega)
    refine ⟨_, Read_WF_ok hwf d hp, ?_⟩
    show List.take (min d.length (contents r).length) (contents r) ++
      List.drop (min d.length (contents r).length) d = contents r
    rw [e, e2, List.take_length, List.append_nil]
  · intro h0
    apply List.length_eq_zero.mp; omega

theorem C11_bytes_full_snapshot_witness :
    (1 : Int) ≤ 10 ∧ Reachable 10 overfilled ∧
    ∃ bs, Bytes overfilled = some (overfilled, bs) ∧ (bs.length : Int) = overfilled.Len ∧
      (∀ d : List Byte, (d.length : Int) = overfilled.Len →
        ∃ res, Read overfilled d = some res ∧ res.p = bs) ∧
      (overfilled.Len = 0 → bs = []) ∧ String overfilled = some (overfilled, bs) :=
  ⟨by decide, overfilled_reachable,
    C11_bytes_full_snapshot 10 (by decide) overfilled overfilled_reachable⟩

/-- C12: an oversized write alone determines the result. For every size `c >= 1`, every `p`
with `len(p) >= c` and any two states reachable from `NewPeekBuffer(c)`, `Write(p)` gives the
same state on both: `Len = c`, `Pos = 0` and `Buffer` the last `c` bytes of `p`, so that
`Bytes()` is the last `c` bytes of `p`. The case `len(p) = c` at `Pos = 0`, which takes the
first branch of `Write`, is included. -/
theorem C12_oversized_write_determines (c : Int) (hc : 1 ≤ c) (p : List Byte)
    (hp : c ≤ (p.length : Int)) (s1 s2 : PeekBuffer) (h1 : Reachable c s1)
    (h2 : Reachable c s2) :
    ∃ res1 res2, Write s1 p = some res1 ∧ Write s2 p = some res2 ∧ res1.r = res2.r ∧
      res1.r = { Buffer := lastN c.toNat p, Cap := c, Len := c, Pos := 0 } ∧
      (Bytes res1.r).map Prod.snd = some (lastN c.toNat p) := by
  have hw1 := h1.wf hc
  have hw2 := h2.wf hc
  obtain ⟨n, rfl⟩ := Int.eq_ofNat_of_zero_le (by omega : 0 ≤ c)
  rw [Int.toNat_ofNat] at hw1 hw2 ⊢
  have hpn : n ≤ p.length := by omega
  have hn : 0 < n := by omega
  refine ⟨_, _, Write_WF_oversized hw1 p hpn, Write_WF_oversized hw2 p hpn, rfl, rfl, ?_⟩
  have hwf : WF n { Buffer := lastN n p, Cap := n, Len := n, Pos := ((0 : Nat) : Int) } :=
    WF_full _ n 0 (lastN_length_of_le n p hpn) hn
  have hb := Bytes_WF hwf
  rw [contents_full _ _ _ hn] at hb
  simp only [Nat.cast_zero, List.drop_zero, List.take_zero, List.append_nil] at hb
  rw [hb]
  rfl

theorem C12_oversized_write_determines_witness :
    (1 : Int) ≤ 10 ∧
    (10 : Int) ≤ ((([49, 50, 51, 52, 53, 54, 55, 56, 57, 48] : List Byte).length : Nat) : Int) ∧
    Reachable 10 fresh10 ∧ Reachable 10 overfilled ∧
    ∃ res1 res2, Write fresh10 [49, 50, 51, 52, 53, 54, 55, 56, 57, 48] = some res1 ∧
      Write overfilled [49, 50, 51, 52, 53, 54, 55, 56, 57, 48] = some res2 ∧
      res1.r = res2.r ∧
      res1.r = { Buffer := lastN (10 : Int).toNat [49, 50, 51, 52, 53, 54, 55, 56, 57, 48],
                 Cap := 10, Len := 10, Pos := 0 } ∧
      (Bytes res1.r).map Prod.snd =
        some (lastN (10 : Int).toNat [49, 50, 51, 52, 53, 54, 55, 56, 57, 48]) :=
  ⟨by decide, by decide, fresh10_reachable, overfilled_reachable,
    C12_oversized_write_determines 10 (by decide) [49, 50, 51, 52, 53, 54, 55, 56, 57, 48]
      (by decide) fresh10 overfilled fresh10_reachable overfilled_reachable⟩

/-- C13: `Reset` postcondition and frame. In every state `Reset()` gives `Len = 0` and
`Pos = 0` and leaves `Cap` and every byte of the backing array unchanged (the array is not
zeroed); a second `Reset` changes nothing more. -/
theorem C13_reset_postcondition (r : PeekBuffer) :
    (Reset r).Len = 0 ∧ (Reset r).Pos = 0 ∧ (Reset r).Cap = r.Cap ∧
      (Reset r).Buffer = r.Buffer ∧ Reset (Reset r) = Reset r ∧
      step r Op.reset = some (Reset r) :=
  ⟨rfl, rfl, rfl, rfl, rfl, rfl⟩

/-- C14: stale bytes are unreachable after `Reset`. Two states with the same `Cap = c >= 1`,
`Len = 0`, `Pos = 0` and arbitrary arrays of `c` bytes go through any sequence of calls without
panic, and afterwards every `Read` (its `n`, its error and the destination it leaves) and
`Bytes()` and `String()` give the same result in both. -/
theorem C14_stale_bytes_unreachable (c : Nat) (hc : 1 ≤ c) (b1 b2 : List Byte)
    (hb1 : b1.length = c) (hb2 : b2.length = c) (ops : List Op) :
    ∃ t1 t2, run { Buffer := b1, Cap := c, Len := 0, Pos := 0 } ops = some t1 ∧
      run { Buffer := b2, Cap := c, Len := 0, Pos := 0 } ops = some t2 ∧
      (∀ d : List Byte, ∃ res1 res2, Read t1 d = some res1 ∧ Read t2 d = some res2 ∧
        res1.n = res2.n ∧ res1.err = res2.err ∧ res1.p = res2.p) ∧
      (∃ bs, Bytes t1 = some (t1, bs) ∧ Bytes t2 = some (t2, bs)) ∧
      (∃ bs, String t1 = some (t1, bs) ∧ String t2 = some (t2, bs)) := by
  have hc0 : 0 < c := by omega
  have w1 : WF c { Buffer := b1, Cap := c, Len := ((0 : Nat) : Int), Pos := ((0 : Nat) : Int) } :=
    WF_filling b1 c 0 hb1 hc0
  have w2 : WF c { Buffer := b2, Cap := c, Len := ((0 : Nat) : Int), Pos := ((0 : Nat) : Int) } :=
    WF_filling b2 c 0 hb2 hc0
  obtain ⟨t1, hr1, hw1, hc1⟩ := run_inv hc0 ops _ [] w1 (by simp [contents, lastN])
  obtain ⟨t2, hr2, hw2, hc2⟩ := run_inv hc0 ops _ [] w2 (by simp [contents, lastN])
  have hct : contents t1 = contents t2 := by rw [hc1, hc2]
  refine ⟨t1, t2, hr1, hr2, fun d => Read_WF_congr hw1 hw2 hct d,
    ⟨contents t1, Bytes_WF hw1, by rw [hct]; exact Bytes_WF hw2⟩,
    ⟨contents t1, Bytes_WF hw1, by rw [hct]; exact Bytes_WF hw2⟩⟩

theorem C14_stale_bytes_unreachable_witness :
    1 ≤ 10 ∧ overfilled.Buffer.length = 10 ∧ fresh10.Buffer.length = 10 ∧
    ∃ t1 t2, run { Buffer := overfilled.Buffer, Cap := ((10 : Nat) : Int), Len := 0, Pos := 0 }
        overfillOps = some t1 ∧
      run { Buffer := fresh10.Buffer, Cap := ((10 : Nat) : Int), Len := 0, Pos := 0 }
        overfillOps = some t2 ∧
      (∀ d : List Byte, ∃ res1 res2, Read t1 d = some res1 ∧ Read t2 d = some res2 ∧
        res1.n = res2.n ∧ res1.err = res2.err ∧ res1.p = res2.p) ∧
      (∃ bs, Bytes t1 = some (t1, bs) ∧ Bytes t2 = some (t2, bs)) ∧
      (∃ bs, String t1 = some (t1, bs) ∧ String t2 = some (t2, bs)) :=
  ⟨by decide, by decide, by decide,
    C14_stale_bytes_unreachable 10 (by decide) overfilled.Buffer fresh10.Buffer (by decide)
      (by decide) overfillOps⟩

/-- C15: constructor postcondition. For every size `c >= 1`, `NewPeekBuffer(c)` returns a buffer
with `Cap = c`, `Len = 0`, `Pos = 0` and a backing array of exactly `c` bytes, all zero. -/
theorem C15_constructor_postcondition (c : Int) (hc : 1 ≤ c) :
    ∃ r, NewPeekBuffer c = some r ∧ r.Cap = c ∧ r.Len = 0 ∧ r.Pos = 0 ∧
      (r.Buffer.length : Int) = c ∧ ∀ x ∈ r.Buffer, x = 0 := by
  have h0 : 0 ≤ c := by omega
  refine ⟨_, if_pos h0, rfl, rfl, rfl, ?_, ?_⟩
  · simp only [List.length_replicate]; omega
  · intro x hx
    exact List.eq_of_mem_replicate hx

theorem C15_constructor_postcondition_witness :
    (1 : Int) ≤ 10 ∧ ∃ r, NewPeekBuffer 10 = some r ∧ r.Cap = 10 ∧ r.Len = 0 ∧ r.Pos = 0 ∧
      (r.Buffer.length : Int) = 10 ∧ ∀ x ∈ r.Buffer, x = 0 :=
  ⟨by decide, C15_constructor_postcondition 10 (by decide)⟩

/-- C16: the lock discipline is not deadlock-free. On a non-empty buffer (`Len = 10`) a
`Bytes()` and a `Write` started together can reach a state in which neither call can ever
continue: `Bytes` holds a read lock, the `Write` has called `Lock()` and waits for that read
lock to be released, and the `Read` inside `Bytes` waits in `RLock()` behind the waiting
writer. -/
theorem C16_bytes_write_deadlock :
    0 < overfilled.Len ∧ Reachable 10 overfilled ∧
    ∃ s, (Sys.start overfilled [.bytes, .write [65]]).runSchedule [0, 1] = some s ∧
      s.threads = [[.rlock, .runlock, .runlock], [.lockEnd, .unlock]] ∧
      s.lock = { readers := 1, writer := .waiting } ∧ s.Deadlocked := by
  refine ⟨by decide, overfilled_reachable,
    { lock := { readers := 1, writer := .waiting },
      threads := [[.rlock, .runlock, .runlock], [.lockEnd, .unlock]] },
    by decide, rfl, rfl, ⟨⟨_, List.mem_cons_self _ _, by decide⟩, ?_⟩⟩
  intro i
  match i with
  | 0 => decide
  | 1 => decide
  | n + 2 => rfl

/-- C17: write cursor arithmetic. In every reachable state with `Cap = c >= 1` and for every
`p`, the write position after `Write(p)` is 0 if `len(p) >= c` and `(Pos + len(p)) mod c`
otherwise: `Pos + len(p)` when the write does not reach the end of the array, 0 when it ends
exactly there, `len(p) - (c - Pos)` when it wraps around. -/
theorem C17_write_cursor (c : Int) (hc : 1 ≤ c) (r : PeekBuffer) (hr : Reachable c r)
    (p : List Byte) :
    ∃ res, Write r p = some res ∧
      res.r.Pos = (if c ≤ (p.length : Int) then 0 else (r.Pos + (p.length : Int)) % c) ∧
      (r.Pos + (p.length : Int) < c → res.r.Pos = r.Pos + (p.length : Int)) ∧
      (r.Pos + (p.length : Int) = c → res.r.Pos = 0) ∧
      ((p.length : Int) < c → c < r.Pos + (p.length : Int) →
        res.r.Pos = (p.length : Int) - (c - r.Pos)) := by
  have hwf := hr.wf hc
  obtain ⟨n, rfl⟩ := Int.eq_ofNat_of_zero_le (by omega : 0 ≤ c)
  rw [Int.toNat_ofNat] at hwf
  obtain ⟨k, L, hP, hL, hk, hLc, -, hb, hw⟩ := Write_WF_fields hwf p
  refine ⟨_, hw, ?_, ?_, ?_, ?_⟩
  · show ((wPos n k p.length : Nat) : Int) = _
    rw [wPos_eq_mod n k _ hk, hP]
    by_cases h3 : n ≤ p.length
    · have h3' : (n : Int) ≤ (p.length : Int) := by omega
      simp [h3, h3']
    · have h3' : ¬ (n : Int) ≤ (p.length : Int) := by omega
      simp only [h3, h3', if_false]
      push_cast
      rfl
  · intro h1
    show ((wPos n k p.length : Nat) : Int) = _
    rw [hP] at h1 ⊢
    unfold wPos; split_ifs <;> omega
  · intro h1
    show ((wPos n k p.length : Nat) : Int) = _
    rw [hP] at h1
    unfold wPos; split_ifs <;> omega
  · intro h1 h2
    show ((wPos n k p.length : Nat) : Int) = _
    rw [hP] at h2 ⊢
    unfold wPos; split_ifs <;> omega

theorem C17_write_cursor_witness :
    (1 : Int) ≤ 10 ∧ Reachable 10 overfilled ∧
    ∃ res, Write overfilled (List.replicate 9 65) = some res ∧
      res.r.Pos = (if (10 : Int) ≤ (((List.replicate 9 65 : List Byte).length : Nat) : Int)
        then 0
        else (overfilled.Pos + (((List.replicate 9 65 : List Byte).length : Nat) : Int)) % 10) ∧
      (overfilled.Pos + (((List.replicate 9 65 : List Byte).length : Nat) : Int) < 10 →
        res.r.Pos = overfilled.Pos + (((List.replicate 9 65 : List Byte).length : Nat) : Int)) ∧
      (overfilled.Pos + (((List.replicate 9 65 : List Byte).length : Nat) : Int) = 10 →
        res.r.Pos = 0) ∧
      ((((List.replicate 9 65 : List Byte).length : Nat) : Int) < 10 →
        10 < overfilled.Pos + (((List.replicate 9 65 : List Byte).length : Nat) : Int) →
        res.r.Pos = (((List.replicate 9 65 : List Byte).length : Nat) : Int) -
          (10 - overfilled.Pos)) :=
  ⟨by decide, overfilled_reachable,
    C17_write_cursor 10 (by decide) overfilled overfilled_reachable (List.replicate 9 65)⟩

/-- C18: filling/full phase invariant. For every size `c >= 1` and every sequence of calls on
`NewPeekBuffer(c)`, with `T` the number of bytes written since construction or the last
`Reset`: `Len = min(c, T)`; if `T < c` then `Pos = Len`; the read-start test `Pos >= Len` holds
exactly when `T < c`; a further `Write` never decreases `Len`, and leaves it at `c` once it
is `c`. -/
theorem C18_phase_invariant (c : Int) (hc : 1 ≤ c) (ops : List Op) :
    ∃ r0 r, NewPeekBuffer c = some r0 ∧ run r0 ops = some r ∧
      r.Len = min c ((history [] ops).length : Int) ∧
      (((history [] ops).length : Int) < c → r.Pos = r.Len) ∧
      (r.Pos ≥ r.Len ↔ ((history [] ops).length : Int) < c) ∧
      (∀ p : List Byte, ∃ res, Write r p = some res ∧ r.Len ≤ res.r.Len ∧
        (r.Len = c → res.r.Len = c)) := by
  obtain ⟨r0, r, h0, hr, hwf, hct⟩ := run_new hc ops
  obtain ⟨n, rfl⟩ := Int.eq_ofNat_of_zero_le (by omega : 0 ≤ c)
  rw [Int.toNat_ofNat] at hwf hct
  have hcl := contents_length hwf
  rw [hct, lastN_length] at hcl
  have hLen : r.Len = min (n : Int) ((history [] ops).length : Int) := by omega
  refine ⟨r0, r, h0, hr, hLen, ?_, ?_, ?_⟩
  · intro hT
    obtain ⟨_, _, hph⟩ := hwf
    rcases hph with ⟨k, hk, hL, hP⟩ | ⟨k, hk, hL, hP⟩ <;> omega
  · obtain ⟨_, _, hph⟩ := hwf
    rcases hph with ⟨k, hk, hL, hP⟩ | ⟨k, hk, hL, hP⟩ <;> constructor <;> intro h <;> omega
  · intro p
    obtain ⟨k, L, hP, hL, hk, hLc, -, hb, hw⟩ := Write_WF_fields hwf p
    refine ⟨_, hw, ?_, ?_⟩
    · show r.Len ≤ ((min n (L + p.length) : Nat) : Int)
      omega
    · intro h
      show ((min n (L + p.length) : Nat) : Int) = (n : Int)
      omega

theorem C18_phase_invariant_witness :
    (1 : Int) ≤ 10 ∧
    ∃ r0 r, NewPeekBuffer 10 = some r0 ∧ run r0 overfillOps = some r ∧
      r.Len = min 10 ((history [] overfillOps).length : Int) ∧
      (((history [] overfillOps).length : Int) < 10 → r.Pos = r.Len) ∧
      (r.Pos ≥ r.Len ↔ ((history [] overfillOps).length : Int) < 10) ∧
      (∀ p : List Byte, ∃ res, Write r p = some res ∧ r.Len ≤ res.r.Len ∧
        (r.Len = 10 → res.r.Len = 10)) :=
  ⟨by decide, C18_phase_invariant 10 (by decide) overfillOps⟩

/-- C19: `Write` touches only the written window. In every reachable state with `Cap = c >= 1`
and for every `p` with `len(p) < c`, after `Write(p)` the cell at index `(Pos + i) mod c` holds
`p[i]` for every `i < len(p)` (`Pos` taken before the call), every other cell of the array is
unchanged, and `Cap` is unchanged. -/
theorem C19_write_window (c : Int) (hc : 1 ≤ c) (r : PeekBuffer) (hr : Reachable c r)
    (p : List Byte) (hp : (p.length : Int) < c) :
    ∃ res, Write r p = some res ∧ res.r.Cap = r.Cap ∧
      (∀ i : Nat, i < p.length →
        res.r.Buffer[((r.Pos + (i : Int)) % c).toNat]? = p[i]?) ∧
      (∀ j : Nat, (j : Int) < c →
        (∀ i : Nat, i < p.length → (r.Pos + (i : Int)) % c ≠ (j : Int)) →
        res.r.Buffer[j]? = r.Buffer[j]?) := by
  have hwf := hr.wf hc
  obtain ⟨n, rfl⟩ := Int.eq_ofNat_of_zero_le (by omega : 0 ≤ c)
  rw [Int.toNat_ofNat] at hwf
  obtain ⟨k, L, hP, hL, hk, hLc, -, hb, hw⟩ := Write_WF_fields hwf p
  have hpn : p.length < n := by omega
  have hmod : ∀ i : Nat, (r.Pos + (i : Int)) % (n : Int) = (((k + i) % n : Nat) : Int) := by
    intro i
    rw [hP]
    push_cast
    rfl
  refine ⟨_, hw, hwf.cap.symm, ?_, ?_⟩
  · intro i hi
    rw [hmod i, Int.toNat_ofNat]
    exact wBuf_window r.Buffer p n k hb hk hpn i hi
  · intro j hj hout
    apply wBuf_frame r.Buffer p n k hb hk hpn j (by omega)
    intro i hi h
    apply hout i hi
    rw [hmod i, h]

theorem C19_write_window_witness :
    (1 : Int) ≤ 10 ∧ Reachable 10 overfilled ∧
    ((([65, 66, 67, 68, 69, 70, 71, 72, 73] : List Byte).length : Nat) : Int) < 10 ∧
    ∃ res, Write overfilled [65, 66, 67, 68, 69, 70, 71, 72, 73] = some res ∧
      res.r.Cap = overfilled.Cap ∧
      (∀ i : Nat, i < ([65, 66, 67, 68, 69, 70, 71, 72, 73] : List Byte).length →
        res.r.Buffer[((overfilled.Pos + (i : Int)) % 10).toNat]? =
          ([65, 66, 67, 68, 69, 70, 71, 72, 73] : List Byte)[i]?) ∧
      (∀ j : Nat, (j : Int) < 10 →
        (∀ i : Nat, i < ([65, 66, 67, 68, 69, 70, 71, 72, 73] : List Byte).length →
          (overfilled.Pos + (i : Int)) % 10 ≠ (j : Int)) →
        res.r.Buffer[j]? = overfilled.Buffer[j]?) :=
  ⟨by decide, overfilled_reachable, by decide,
    C19_write_window 10 (by decide) overfilled overfilled_reachable
      [65, 66, 67, 68, 69, 70, 71, 72, 73] (by decide)⟩

/-- C20: no out-of-range slicing. For every size `c >= 0` (the degenerate `c = 0` included),
every sequence of calls on `NewPeekBuffer(c)` runs without panic, and in the state it reaches
`Write(p)`, `Read(d)` and `Bytes()` return for every `p` and `d`, that is, every slice
expression they evaluate is within range; for `c = 0` the state has `Len = 0` and `Pos = 0`
and every `Write` leaves them so. -/
theorem C20_no_out_of_range_slicing (c : Int) (hc : 0 ≤ c) (ops : List Op) :
    ∃ r0 r, NewPeekBuffer c = some r0 ∧ run r0 ops = some r ∧
      (∀ p : List Byte, ∃ res, Write r p = some res) ∧
      (∀ d : List Byte, ∃ res, Read r d = some res) ∧
      (∃ res, Bytes r = some res) ∧
      (c = 0 → r.Len = 0 ∧ r.Pos = 0 ∧
        ∀ p : List Byte, ∃ res, Write r p = some res ∧ res.r.Len = 0 ∧ res.r.Pos = 0) := by
  by_cases h0 : c = 0
  · subst h0
    refine ⟨_, _, rfl, run_zero ops, fun p => ⟨_, Write_zero p⟩, ?_, ⟨_, Bytes_zero⟩, ?_⟩
    · intro d
      obtain ⟨res, hr, -⟩ := Read_zero d
      exact ⟨res, hr⟩
    · intro _
      exact ⟨rfl, rfl, fun p => ⟨_, Write_zero p, rfl, rfl⟩⟩
  · have h1 : 1 ≤ c := by omega
    obtain ⟨r0, r, hnew, hr, hwf, -⟩ := run_new h1 ops
    refine ⟨r0, r, hnew, hr, ?_, ?_, ⟨_, Bytes_WF hwf⟩, fun h => absurd h h0⟩
    · intro p
      obtain ⟨r1, hw, -, -⟩ := Write_WF hwf p
      exact ⟨_, hw⟩
    · intro d
      obtain ⟨res, hrd, -⟩ := Read_WF_total hwf d
      exact ⟨res, hrd⟩

theorem C20_no_out_of_range_slicing_witness :
    (0 : Int) ≤ 0 ∧
    ∃ r0 r, NewPeekBuffer 0 = some r0 ∧ run r0 overfillOps = some r ∧
      (∀ p : List Byte, ∃ res, Write r p = some res) ∧
      (∀ d : List Byte, ∃ res, Read r d = some res) ∧
      (∃ res, Bytes r = some res) ∧
      ((0 : Int) = 0 → r.Len = 0 ∧ r.Pos = 0 ∧
        ∀ p : List Byte, ∃ res, Write r p = some res ∧ res.r.Len = 0 ∧ res.r.Pos = 0) :=
  ⟨by decide, C20_no_out_of_range_slicing 0 (by decide) overfillOps⟩

end PeekBuffer
